import Mathlib

/-!
Verification development for the ypy value-marshalling and type-integration
layer (`src/type_conversions.rs`, `src/y_array.rs`).

The development shallowly embeds the two source files:
* the value codec `py_into_any` / `impl ToPython for Any`;
* the `Prelim` implementations (`into_content`, `integrate`) for
  `PyObjectWrapper` / `PyValueWrapper` (the two impls have identical logic and
  are embedded once);
* the batch insertion planner `insert_at`;
* the `YArray` operations `insert`, `push`, `delete`, `get`.

Host (Python) values are modelled by the inductive `PyValue`; the engine's
`lib0::any::Any` union by `Any`.  Python floats (IEEE-754 doubles) are carried
opaquely as their 64-bit patterns (`Nat`), since the codec only passes them
through unchanged.  Python ints are arbitrary-precision `Int`, as in CPython.
Shared-container handles are identified by `Nat` ids into an explicit handle
heap; the contents of an integrated container's tree branch are stored in the
handle's heap cell.
-/

set_option maxHeartbeats 1000000

namespace Ypy

/-! ### Host values and engine `Any` values -/

mutual

/-- Host (Python) dynamic value, as classified by the runtime downcasts in
`py_into_any`: strings, ints (`PyLong`, which includes booleans as a
subtype — booleans are a separate constructor here, with the subtyping
reflected in the encoder), `None`, floats, booleans, lists, dicts (with
string keys, the only kind the code supports), byte-arrays, and
shared-container handles (identified by a heap id). -/
inductive PyValue where
  | vnone
  | vbool (b : Bool)
  | vint (n : Int)
  | vfloat (bits : Nat)
  | vstring (s : String)
  | vbytearray (bytes : List Nat)
  | vlist (xs : PyValueList)
  | vdict (entries : PyValueEntries)
  | vshared (h : Nat)

/-- Spine of a Python list of `PyValue` (kept as a mutual inductive so that
all codec functions are structurally recursive and kernel-reducible). -/
inductive PyValueList where
  | nil
  | cons (head : PyValue) (tail : PyValueList)

/-- Spine of a Python dict with string keys. -/
inductive PyValueEntries where
  | nil
  | cons (key : String) (value : PyValue) (tail : PyValueEntries)

end

mutual

/-- The `lib0::any::Any` closed value union: Null, Undefined, Bool, Number
(f64, carried as its bit pattern), BigInt (i64), String, Buffer, Array, Map.
`Map` is a `HashMap` in the source; it is modelled as an ordered entry list
(iteration order is abstracted). -/
inductive Any where
  | null
  | undefined
  | bool (b : Bool)
  | number (bits : Nat)
  | bigint (n : Int)
  | string (s : String)
  | buffer (bytes : List Nat)
  | array (xs : AnyList)
  | map (entries : AnyEntries)

/-- Spine of `Vec<Any>` nested inside an `Any::Array`. -/
inductive AnyList where
  | nil
  | cons (head : Any) (tail : AnyList)

/-- Spine of the entry list of an `Any::Map`. -/
inductive AnyEntries where
  | nil
  | cons (key : String) (value : Any) (tail : AnyEntries)

end

/-! ### The integer-through-float intermediate

`py_into_any` extracts every `PyLong` through an `f64` intermediate and casts
back with `as i64` (`let i: f64 = l.extract().unwrap(); Any::BigInt(i as i64)`).
`intAsF64` models the `i64`-relevant part of that conversion: conversion of an
integer to the nearest IEEE-754 double (round-to-nearest, ties-to-even), exact
for magnitudes up to `2 ^ 53`.  (For `|n| ≥ 2 ^ 1024` the real extraction
raises `OverflowError` and the `unwrap` panics; no theorem below evaluates the
function in that range.)  `castI64` models Rust's saturating `as i64` cast of
an integral double. -/
def intAsF64 (n : Int) : Int :=
  let a := n.natAbs
  if a ≤ 2 ^ 53 then n
  else
    let b := Nat.log2 a
    let s := 2 ^ (b - 52)
    let q := a / s
    let r := a % s
    let rounded :=
      if 2 * r < s then q * s
      else if 2 * r > s then (q + 1) * s
      else if q % 2 = 0 then q * s else (q + 1) * s
    if n < 0 then -(rounded : Int) else (rounded : Int)

/-- Saturating `as i64` cast of an integral `f64` value (Rust semantics). -/
def castI64 (x : Int) : Int :=
  if x > 2 ^ 63 - 1 then 2 ^ 63 - 1
  else if x < -(2 ^ 63) then -(2 ^ 63)
  else x

/-! ### The encoder `py_into_any`

Translated from `type_conversions.rs` lines 262-304.  The source classifies by
runtime downcast in this order: `PyString`, `PyLong`, `None`, `PyFloat`,
`PyBool`, `PyList`, `PyDict` (with a `Shared::extract` guard), else `None`.
Because a Python `bool` is a subtype of `int`, the `PyLong` downcast succeeds
on booleans before the `PyBool` branch is ever reached, so a boolean is
encoded through the integer path (`True ↦ BigInt 1`, `False ↦ BigInt 0`) and
the `Any::Bool` arm of the encoder is unreachable.  Dict keys are required to
be strings by the source (`k.downcast::<PyString>().unwrap()`); the model
builds that in.  A shared handle matches none of the downcasts (the dict
branch additionally guards against it explicitly) and yields `none`, as does a
byte-array, for which the encoder has no branch. -/
mutual

def py_into_any : PyValue → Option Any
  | .vstring s => some (.string s)
  | .vint n => some (.bigint (castI64 (intAsF64 n)))
  | .vbool b => some (.bigint (castI64 (intAsF64 (if b then 1 else 0))))
  | .vnone => some .null
  | .vfloat bits => some (.number bits)
  | .vlist xs =>
    match encodePyList xs with
    | some l => some (.array l)
    | none => none
  | .vdict es =>
    match encodePyEntries es with
    | some l => some (.map l)
    | none => none
  | .vbytearray _ => none
  | .vshared _ => none

def encodePyList : PyValueList → Option AnyList
  | .nil => some .nil
  | .cons v tail =>
    match py_into_any v, encodePyList tail with
    | some a, some l => some (.cons a l)
    | _, _ => none

def encodePyEntries : PyValueEntries → Option AnyEntries
  | .nil => some .nil
  | .cons k v tail =>
    match py_into_any v, encodePyEntries tail with
    | some a, some l => some (.cons k a l)
    | _, _ => none

end

/-! ### The decoder `impl ToPython for Any`

Translated from `type_conversions.rs` lines 306-336: `Null`/`Undefined` map to
Python `None`, `Bool` to a bool, `Number` to a float (bit pattern passed
through), `BigInt` to an int, `String` to a str, `Buffer` to a fresh
`bytearray`, `Array` to a fresh list, `Map` to a fresh dict. -/
mutual

def Any.into_py : Any → PyValue
  | .null => .vnone
  | .undefined => .vnone
  | .bool b => .vbool b
  | .number bits => .vfloat bits
  | .bigint n => .vint n
  | .string s => .vstring s
  | .buffer bytes => .vbytearray bytes
  | .array xs => .vlist (anyListIntoPy xs)
  | .map es => .vdict (anyEntriesIntoPy es)

def anyListIntoPy : AnyList → PyValueList
  | .nil => .nil
  | .cons a tail => .cons a.into_py (anyListIntoPy tail)

def anyEntriesIntoPy : AnyEntries → PyValueEntries
  | .nil => .nil
  | .cons k a tail => .cons k a.into_py (anyEntriesIntoPy tail)

end

/-! ### Codec predicates -/

mutual

/-- Values on which the encode/decode composition is the identity, as forced
by the code: booleans are excluded (they encode through the integer path),
byte-arrays and shared handles are excluded (not encodable), and integers are
restricted to the f64-exact range `|n| ≤ 2 ^ 53` (the encoder's float
intermediate).  This is the domain of the amended round-trip claim. -/
def roundOk : PyValue → Bool
  | .vnone => true
  | .vbool _ => false
  | .vint n => decide (n.natAbs ≤ 2 ^ 53)
  | .vfloat _ => true
  | .vstring _ => true
  | .vbytearray _ => false
  | .vlist xs => roundOkList xs
  | .vdict es => roundOkEntries es
  | .vshared _ => false

def roundOkList : PyValueList → Bool
  | .nil => true
  | .cons v tail => roundOk v && roundOkList tail

def roundOkEntries : PyValueEntries → Bool
  | .nil => true
  | .cons _ v tail => roundOk v && roundOkEntries tail

end

mutual

/-- The closed primitive/container set recognized by the encoder (spec §4.1):
`None`, booleans, ints, floats, strings, and lists/dicts all of whose nested
values are themselves in the set.  Shared handles and byte-arrays (for which
the encoder has no branch) are outside the set. -/
def encodableSet : PyValue → Bool
  | .vnone => true
  | .vbool _ => true
  | .vint _ => true
  | .vfloat _ => true
  | .vstring _ => true
  | .vbytearray _ => false
  | .vlist xs => encodableSetList xs
  | .vdict es => encodableSetEntries es
  | .vshared _ => false

def encodableSetList : PyValueList → Bool
  | .nil => true
  | .cons v tail => encodableSet v && encodableSetList tail

def encodableSetEntries : PyValueEntries → Bool
  | .nil => true
  | .cons _ v tail => encodableSet v && encodableSetEntries tail

end

/-- Elements of a `PyValueList`, as an ordinary list. -/
def PyValueList.toList : PyValueList → List PyValue
  | .nil => []
  | .cons v tail => v :: tail.toList

/-- Entries of a `PyValueEntries`, as an ordinary list. -/
def PyValueEntries.toList : PyValueEntries → List (String × PyValue)
  | .nil => []
  | .cons k v tail => (k, v) :: tail.toList

/-! ### Codec lemmas -/

theorem intAsF64_small {n : Int} (h : n.natAbs ≤ 2 ^ 53) : intAsF64 n = n := by
  unfold intAsF64
  simp [h]
  intro h2
  exfalso
  omega

theorem castI64_small {n : Int} (h : n.natAbs ≤ 2 ^ 53) : castI64 n = n := by
  unfold castI64
  have h1 : ¬ n > 2 ^ 63 - 1 := by omega
  have h2 : ¬ n < -(2 ^ 63) := by omega
  rw [if_neg h1, if_neg h2]

mutual

theorem roundtrip_val : ∀ v : PyValue, roundOk v = true →
    Option.map Any.into_py (py_into_any v) = some v
  | .vnone, _ => rfl
  | .vfloat _, _ => rfl
  | .vstring _, _ => rfl
  | .vint n, h => by
    have hn : n.natAbs ≤ 2 ^ 53 := of_decide_eq_true (by simpa [roundOk] using h)
    simp [py_into_any, intAsF64_small hn, castI64_small hn, Any.into_py]
  | .vlist xs, h => by
    have h' : roundOkList xs = true := by simpa [roundOk] using h
    have hl := roundtrip_list xs h'
    cases he : encodePyList xs with
    | none => rw [he] at hl; simp at hl
    | some l =>
      rw [he] at hl
      simp only [Option.map_some'] at hl
      injection hl with hl
      simp [py_into_any, he, Any.into_py, hl]
  | .vdict es, h => by
    have h' : roundOkEntries es = true := by simpa [roundOk] using h
    have hl := roundtrip_entries es h'
    cases he : encodePyEntries es with
    | none => rw [he] at hl; simp at hl
    | some l =>
      rw [he] at hl
      simp only [Option.map_some'] at hl
      injection hl with hl
      simp [py_into_any, he, Any.into_py, hl]

theorem roundtrip_list : ∀ xs : PyValueList, roundOkList xs = true →
    Option.map anyListIntoPy (encodePyList xs) = some xs
  | .nil, _ => rfl
  | .cons v tail, h => by
    have h1 : roundOk v = true ∧ roundOkList tail = true := by
      simpa [roundOkList, Bool.and_eq_true] using h
    have hv := roundtrip_val v h1.1
    have ht := roundtrip_list tail h1.2
    cases hev : py_into_any v with
    | none => rw [hev] at hv; simp at hv
    | some a =>
      cases het : encodePyList tail with
      | none => rw [het] at ht; simp at ht
      | some l =>
        rw [hev] at hv; rw [het] at ht
        simp only [Option.map_some'] at hv ht
        injection hv with hv; injection ht with ht
        simp [encodePyList, hev, het, anyListIntoPy, hv, ht]

theorem roundtrip_entries : ∀ es : PyValueEntries, roundOkEntries es = true →
    Option.map anyEntriesIntoPy (encodePyEntries es) = some es
  | .nil, _ => rfl
  | .cons k v tail, h => by
    have h1 : roundOk v = true ∧ roundOkEntries tail = true := by
      simpa [roundOkEntries, Bool.and_eq_true] using h
    have hv := roundtrip_val v h1.1
    have ht := roundtrip_entries tail h1.2
    cases hev : py_into_any v with
    | none => rw [hev] at hv; simp at hv
    | some a =>
      cases het : encodePyEntries tail with
      | none => rw [het] at ht; simp at ht
      | some l =>
        rw [hev] at hv; rw [het] at ht
        simp only [Option.map_some'] at hv ht
        injection hv with hv; injection ht with ht
        simp [encodePyEntries, hev, het, anyEntriesIntoPy, hv, ht]

end

mutual

theorem encode_isSome_val : ∀ v : PyValue, (py_into_any v).isSome = encodableSet v
  | .vnone => rfl
  | .vbool _ => rfl
  | .vint _ => rfl
  | .vfloat _ => rfl
  | .vstring _ => rfl
  | .vbytearray _ => rfl
  | .vshared _ => rfl
  | .vlist xs => by
    have := encode_isSome_list xs
    cases he : encodePyList xs with
    | none => rw [he] at this; simp [py_into_any, he, encodableSet, ← this]
    | some l => rw [he] at this; simp [py_into_any, he, encodableSet, ← this]
  | .vdict es => by
    have := encode_isSome_entries es
    cases he : encodePyEntries es with
    | none => rw [he] at this; simp [py_into_any, he, encodableSet, ← this]
    | some l => rw [he] at this; simp [py_into_any, he, encodableSet, ← this]

theorem encode_isSome_list : ∀ xs : PyValueList, (encodePyList xs).isSome = encodableSetList xs
  | .nil => rfl
  | .cons v tail => by
    have hv := encode_isSome_val v
    have ht := encode_isSome_list tail
    cases hev : py_into_any v with
    | none =>
      rw [hev] at hv
      simp [encodePyList, hev, encodableSetList, ← hv]
    | some a =>
      rw [hev] at hv
      cases het : encodePyList tail with
      | none => rw [het] at ht; simp [encodePyList, hev, het, encodableSetList, ← hv, ← ht]
      | some l => rw [het] at ht; simp [encodePyList, hev, het, encodableSetList, ← hv, ← ht]

theorem encode_isSome_entries : ∀ es : PyValueEntries,
    (encodePyEntries es).isSome = encodableSetEntries es
  | .nil => rfl
  | .cons k v tail => by
    have hv := encode_isSome_val v
    have ht := encode_isSome_entries tail
    cases hev : py_into_any v with
    | none =>
      rw [hev] at hv
      simp [encodePyEntries, hev, encodableSetEntries, ← hv]
    | some a =>
      rw [hev] at hv
      cases het : encodePyEntries tail with
      | none => rw [het] at ht; simp [encodePyEntries, hev, het, encodableSetEntries, ← hv, ← ht]
      | some l => rw [het] at ht; simp [encodePyEntries, hev, het, encodableSetEntries, ← hv, ← ht]

end

theorem encodePyList_none_of_mem : ∀ (xs : PyValueList) (v : PyValue),
    v ∈ xs.toList → py_into_any v = none → encodePyList xs = none
  | .nil, v, hm, _ => by simp [PyValueList.toList] at hm
  | .cons head tail, v, hm, hv => by
    rcases (by simpa [PyValueList.toList] using hm : v = head ∨ v ∈ tail.toList) with h | h
    · subst h
      simp [encodePyList, hv]
    · cases hh : py_into_any head <;>
        simp [encodePyList, hh, encodePyList_none_of_mem tail v h hv]

theorem encodePyEntries_none_of_mem : ∀ (es : PyValueEntries) (k : String) (v : PyValue),
    (k, v) ∈ es.toList → py_into_any v = none → encodePyEntries es = none
  | .nil, k, v, hm, _ => by simp [PyValueEntries.toList] at hm
  | .cons key val tail, k, v, hm, hv => by
    rcases (by simpa [PyValueEntries.toList] using hm :
        (k = key ∧ v = val) ∨ (k, v) ∈ tail.toList) with ⟨h1, h2⟩ | h
    · subst h2
      simp [encodePyEntries, hv]
    · cases hh : py_into_any val <;>
        simp [encodePyEntries, hh, encodePyEntries_none_of_mem tail k v h hv]

/-! ### Claim theorems for the codec (C1, C6, C9) -/

/-- Discriminator used to state counterexamples without propositional
hypotheses: recognizes `some (vbool true)`. -/
def isSomeVBoolTrue : Option PyValue → Bool
  | some (.vbool true) => true
  | _ => false

/-- C1 (counterexample): the round-trip claim fails on the host boolean
`True`: the encoder routes booleans through the `PyLong` branch, so
`decode (encode True)` is the integer `1`, not the boolean `True` — decoding
the result of encoding does not reproduce the value structurally. -/
theorem codec_roundtrip_bool_counterexample :
    Option.map Any.into_py (py_into_any (.vbool true)) = some (.vint 1) ∧
    isSomeVBoolTrue (Option.map Any.into_py (py_into_any (.vbool true))) = false := by
  constructor <;> rfl

/-- C1 (amended): for every host value containing no booleans, no
byte-arrays, no shared handles, and only integers in the f64-exact range
`|n| ≤ 2 ^ 53`, decoding the result of encoding yields a value structurally
equal to the original, including through nested lists and dicts. -/
theorem codec_roundtrip_of_faithful (v : PyValue) (h : roundOk v = true) :
    Option.map Any.into_py (py_into_any v) = some v :=
  roundtrip_val v h

/-- Witness for `codec_roundtrip_of_faithful` at a concrete nested value. -/
theorem codec_roundtrip_of_faithful_witness :
    roundOk (.vlist (.cons (.vint 3)
      (.cons (.vdict (.cons ("a") (.vfloat 7) .nil))
        (.cons .vnone (.cons (.vstring ("x")) .nil))))) = true ∧
    Option.map Any.into_py (py_into_any (.vlist (.cons (.vint 3)
      (.cons (.vdict (.cons ("a") (.vfloat 7) .nil))
        (.cons .vnone (.cons (.vstring ("x")) .nil)))))) =
      some (.vlist (.cons (.vint 3)
        (.cons (.vdict (.cons ("a") (.vfloat 7) .nil))
          (.cons .vnone (.cons (.vstring ("x")) .nil))))) :=
  ⟨by decide, codec_roundtrip_of_faithful _ (by decide)⟩

/-- C6: the encoder returns `none` exactly when the host value is outside the
closed encodable set: every shared handle (and byte-array) encodes to `none`,
`isSome` of the encoding coincides with membership in the closed set, and a
`none` from any nested element of a list or dict propagates so that the whole
encode is `none` (a composite containing a handle is never flattened into an
`Any`). -/
theorem encoder_none_iff_outside_closed_set :
    (∀ h : Nat, py_into_any (.vshared h) = none) ∧
    (∀ bs : List Nat, py_into_any (.vbytearray bs) = none) ∧
    (∀ v : PyValue, (py_into_any v).isSome = encodableSet v) ∧
    (∀ (xs : PyValueList) (v : PyValue), v ∈ xs.toList → py_into_any v = none →
      py_into_any (.vlist xs) = none) ∧
    (∀ (es : PyValueEntries) (k : String) (v : PyValue), (k, v) ∈ es.toList →
      py_into_any v = none → py_into_any (.vdict es) = none) := by
  refine ⟨fun _ => rfl, fun _ => rfl, encode_isSome_val, ?_, ?_⟩
  · intro xs v hm hv
    simp [py_into_any, encodePyList_none_of_mem xs v hm hv]
  · intro es k v hm hv
    simp [py_into_any, encodePyEntries_none_of_mem es k v hm hv]

/-- Witness for `encoder_none_iff_outside_closed_set`: a one-element list
holding a shared handle satisfies the membership hypothesis, and the whole
list fails to encode. -/
theorem encoder_none_iff_outside_closed_set_witness :
    (PyValue.vshared 0) ∈ (PyValueList.cons (.vshared 0) .nil).toList ∧
    py_into_any (.vlist (.cons (.vshared 0) .nil)) = none :=
  ⟨List.Mem.head _,
    encoder_none_iff_outside_closed_set.2.2.2.1 _ _ (List.Mem.head _) rfl⟩

/-- Discriminator: recognizes `some (Any.bool _)`. -/
def isSomeAnyBool : Option Any → Bool
  | some (.bool _) => true
  | _ => false

/-- C9: because the `PyLong` downcast is tested before the `PyBool` downcast
and Python booleans are a subtype of int, the encoder maps `True` to
`BigInt 1` and `False` to `BigInt 0`, and never produces the `Any::Bool`
variant for a host boolean input. -/
theorem encoder_bool_via_integer_path :
    (∀ b : Bool, py_into_any (.vbool b) = some (.bigint (if b then 1 else 0))) ∧
    (∀ b : Bool, isSomeAnyBool (py_into_any (.vbool b)) = false) := by
  constructor
  · intro b; cases b <;> rfl
  · intro b; cases b <;> rfl

/-! ### The change-event translator for map entries (C8)

`yrs::types::Value` (`type_conversions.rs` lines 338-349) wraps either an
`Any` or a live shared-container reference; decoding a container reference
constructs a fresh host wrapper around the same tree branch, modelled here as
a `vshared` carrying the branch id.  `EntryChange` and its translation are
from `type_conversions.rs` lines 136-163: the translation builds a dict with
an `action` tag and the old/new value fields that are semantically present. -/

/-- The engine's `Value` union: a plain `Any` or a live container reference
(identified by its branch id). -/
inductive Value where
  | any (a : Any)
  | ytext (h : Nat)
  | yarray (h : Nat)
  | ymap (h : Nat)
  | yxmlElement (h : Nat)
  | yxmlText (h : Nat)

/-- Decoding of `Value` into a host value (`impl ToPython for Value`): an
`Any` decodes through the codec; a container reference is wrapped in a fresh
handle object around the same branch. -/
def Value.into_py : Value → PyValue
  | .any a => a.into_py
  | .ytext h => .vshared h
  | .yarray h => .vshared h
  | .ymap h => .vshared h
  | .yxmlElement h => .vshared h
  | .yxmlText h => .vshared h

/-- Map-entry change record (`yrs::types::EntryChange`). -/
inductive EntryChange where
  | inserted (new : Value)
  | updated (old : Value) (new : Value)
  | removed (old : Value)

/-- Translation of an `EntryChange` into the host dict
(`impl IntoPy<PyObject> for EntryChangeWrapper`): `Inserted` yields
`{action: "add", newValue}`, `Updated` yields
`{action: "update", oldValue, newValue}`, `Removed` yields
`{action: "delete", oldValue}`.  The dict is modelled as the ordered list of
`set_item` calls the source performs. -/
def entryChangeIntoPy : EntryChange → List (String × PyValue)
  | .inserted new =>
    [(("action"), .vstring ("add")), (("newValue"), new.into_py)]
  | .updated old new =>
    [(("action"), .vstring ("update")), (("oldValue"), old.into_py),
      (("newValue"), new.into_py)]
  | .removed old =>
    [(("action"), .vstring ("delete")), (("oldValue"), old.into_py)]

/-- Key lookup in the translated dict. -/
def dictLookup : List (String × PyValue) → String → Option PyValue
  | [], _ => none
  | (k, v) :: rest, key => if k = key then some v else dictLookup rest key

/-- C8: the translator maps `Updated(old, new)` to a record with action
`"update"` carrying both `oldValue` and `newValue` (in particular
`Updated(5, 7)` yields `{action: "update", oldValue: 5, newValue: 7}`), an
`Inserted` record carries `newValue` but no `oldValue`, and a `Removed`
record carries `oldValue` but no `newValue`. -/
theorem map_delta_translation :
    (∀ old new : Value,
      dictLookup (entryChangeIntoPy (.updated old new)) ("action") =
          some (.vstring ("update")) ∧
      dictLookup (entryChangeIntoPy (.updated old new)) ("oldValue") = some old.into_py ∧
      dictLookup (entryChangeIntoPy (.updated old new)) ("newValue") = some new.into_py) ∧
    (dictLookup (entryChangeIntoPy (.updated (.any (.bigint 5)) (.any (.bigint 7)))) ("action") =
        some (.vstring ("update")) ∧
      dictLookup (entryChangeIntoPy (.updated (.any (.bigint 5)) (.any (.bigint 7)))) ("oldValue") =
        some (.vint 5) ∧
      dictLookup (entryChangeIntoPy (.updated (.any (.bigint 5)) (.any (.bigint 7)))) ("newValue") =
        some (.vint 7)) ∧
    (∀ new : Value,
      dictLookup (entryChangeIntoPy (.inserted new)) ("action") = some (.vstring ("add")) ∧
      dictLookup (entryChangeIntoPy (.inserted new)) ("newValue") = some new.into_py ∧
      dictLookup (entryChangeIntoPy (.inserted new)) ("oldValue") = none) ∧
    (∀ old : Value,
      dictLookup (entryChangeIntoPy (.removed old)) ("action") = some (.vstring ("delete")) ∧
      dictLookup (entryChangeIntoPy (.removed old)) ("oldValue") = some old.into_py ∧
      dictLookup (entryChangeIntoPy (.removed old)) ("newValue") = none) := by
  refine ⟨fun old new => ⟨?_, ?_, ?_⟩, ⟨rfl, rfl, rfl⟩,
    fun new => ⟨?_, ?_, ?_⟩, fun old => ⟨?_, ?_, ?_⟩⟩ <;>
    simp [entryChangeIntoPy, dictLookup]

/-! ### Shared-container handles, the handle heap, and the document model

`shared_types.rs` (whose shape is pinned by the pattern matches in the two
files under `src/`) keeps each handle in one of two lifecycle states:
`SharedType::Prelim(buffer)` or `SharedType::Integrated(tree_ref)`.  A handle
is identified here by a `Nat` id into an explicit heap; the contents of an
integrated handle's tree branch are stored in its heap cell (each `attach`
creates a fresh branch, so the branch/handle correspondence is one-to-one for
the operations modelled here).  XML handles are never preliminary and play no
role in the claims, so the heap only carries text/array/map states.

Errors: the source signals integration failures with
`panic!("Cannot integrate this type")` (surfaced to the host as a generic
panic exception) and index failures with `PyIndexError`; the two channels are
kept distinct. -/

/-- One countable element of an integrated sequence branch: either a plain
`Any` value (from a range insert) or an attached container (`ItemContent::Type`),
identified by its branch/handle id. -/
inductive DocElem where
  | plain (a : Any)
  | ctr (h : Nat)

/-- Lifecycle state of one shared-container handle (its `SharedType` cell):
preliminary with a host-local buffer, or integrated with the branch contents. -/
inductive HState where
  | prelimText (s : String)
  | prelimArr (buf : List PyValue)
  | prelimMap (buf : List (String × PyValue))
  | integText (s : String)
  | integArr (elems : List DocElem)
  | integMap (entries : List (String × DocElem))

/-- Shared::is_prelim — true exactly on the `Prelim` states. -/
def HState.isPrelim : HState → Bool
  | .prelimText _ => true
  | .prelimArr _ => true
  | .prelimMap _ => true
  | _ => false

/-- The handle heap: association of handle ids to lifecycle states. -/
abbrev Heap := List (Nat × HState)

/-- Lookup of a handle's state. -/
def lookupH : Heap → Nat → Option HState
  | [], _ => none
  | (k, s) :: rest, h => if k = h then some s else lookupH rest h

/-- Replacement (or addition) of a handle's state. -/
def setH : Heap → Nat → HState → Heap
  | [], h, s => [(h, s)]
  | (k, s') :: rest, h, s => if k = h then (h, s) :: rest else (k, s') :: setH rest h s

/-- Errors surfaced to the host: a Rust panic (generic panic exception) or a
`PyIndexError`. -/
inductive Err where
  | panic (msg : String)
  | indexError (msg : String)
deriving DecidableEq

/-- Panic message used by all four integration-failure sites in
`type_conversions.rs`. -/
def cannotIntegrateMsg : String := "Cannot integrate this type"

/-- Index-error message from `y_array.rs`. -/
def yarrayBoundsMsg : String := "Index outside the bounds of an YArray"

/-- Panic message for an out-of-range `Vec::drain` in the preliminary delete
path (the Rust runtime's slice-bounds panic; exact text abstracted). -/
def drainBoundsMsg : String := "range end index out of range"

/-- Marker for exhaustion of the modelled recursion depth (the Rust recursion
is bounded only by the call stack; theorems supply ample fuel). -/
def fuelMsg : String := "recursion limit"

/-- Marker for a case the source cannot reach. -/
def unreachableMsg : String := "unreachable"

/-- Result of `Prelim::into_content` classification: a plain
`ItemContent::Any` holding one encoded value, or an `ItemContent::Type` for a
freshly created branch of the preliminary handle `h`. -/
inductive Content where
  | anyC (a : Any)
  | typeC (h : Nat)

/-- Prelim::into_content for `PyObjectWrapper`/`PyValueWrapper`
(`type_conversions.rs` lines 167-191 and 353-375; the two impls are
identical): try the codec first; otherwise the value must be a recognized
shared handle in `Preliminary` state (a fresh branch is created for it);
an already-integrated handle, or any unrecognized value, panics with
"Cannot integrate this type" before any mutation.  A dangling handle id
cannot arise in the host runtime and is mapped to the same panic. -/
def into_content (heap : Heap) (v : PyValue) : Except Err Content :=
  match py_into_any v with
  | some a => .ok (.anyC a)
  | none =>
    match v with
    | .vshared h =>
      match lookupH heap h with
      | some s => if s.isPrelim then .ok (.typeC h) else .error (.panic cannotIntegrateMsg)
      | none => .error (.panic cannotIntegrateMsg)
    | _ => .error (.panic cannotIntegrateMsg)

/-- One document operation emitted by the batch insertion planner: a single
range insert of a run of encoded plain values, or a single container
attachment. -/
inductive Op where
  | rangeInsert (anys : List Any)
  | containerAttach (h : Nat)

/-- Splice of `xs` into `l` at position `j` (the engine's insert primitives;
the engine's own bounds behavior for `j` beyond the length is outside this
layer, and the ordering theorems hypothesize `j ≤ l.length`). -/
def insertSliceAt {α : Type} (l : List α) (j : Nat) (xs : List α) : List α :=
  l.take j ++ xs ++ l.drop j

/-- Entry update of a map branch: replaces the value of an existing key,
otherwise appends the entry (`yrs::Map::insert`). -/
def setEntry : List (String × DocElem) → String → DocElem → List (String × DocElem)
  | [], k, e => [(k, e)]
  | (k', e') :: rest, k, e =>
    if k' = k then (k, e) :: rest else (k', e') :: setEntry rest k e

/-- The run of leading `Any`-encodable values: the inner `while` of
`insert_at` (`type_conversions.rs` lines 240-247), collecting encoded values
until the first non-encodable element. -/
def takeAnys : List PyValue → List Any × List PyValue
  | [] => ([], [])
  | v :: rest =>
    match py_into_any v with
    | some a =>
      let (anys, r) := takeAnys rest
      (a :: anys, r)
    | none => ([], v :: rest)

theorem takeAnys_snd_le : ∀ src : List PyValue, (takeAnys src).2.length ≤ src.length := by
  intro src
  induction src with
  | nil => simp [takeAnys]
  | cons v rest ih =>
    cases h : py_into_any v with
    | none => simp [takeAnys, h]
    | some a =>
      simp only [takeAnys, h]
      exact le_trans ih (Nat.le_succ _)

/-- Result of `insert_at`: final heap, final branch contents, the trace of
emitted document operations, and the panic (if any) that aborted the loop —
mutations committed before the panic are retained, as in the source. -/
structure InsRes where
  heap : Heap
  dst : List DocElem
  ops : List Op
  err : Option Err

/-- Result of `Prelim::integrate`. -/
structure IntgRes where
  heap : Heap
  err : Option Err

/-- Result of a map-branch insertion. -/
structure MapRes where
  heap : Heap
  map : List (String × DocElem)
  err : Option Err

mutual

/-- Batch insertion planner `insert_at` (`type_conversions.rs` lines
235-260).  Per outer-loop iteration: collect the maximal run of leading
`Any`-encodable values and emit it as one `insert_range` at the cursor,
advancing the cursor by the run length; otherwise classify the head through
`into_content`, insert the single container element at the cursor
(`dst.insert`), replay its buffer via `integrate`, and advance the cursor by
one.  A panic propagates immediately, keeping all mutations already
committed.  The `anyC` classification arm is unreachable here (the head
failed the codec) and is marked as such. -/
def insert_at (fuel : Nat) (heap : Heap) (dst : List DocElem) (j : Nat)
    (src : List PyValue) : InsRes :=
  match src with
  | [] => { heap := heap, dst := dst, ops := [], err := none }
  | v :: rest0 =>
    match py_into_any v with
    | some a =>
      have hrest : (takeAnys rest0).2.length ≤ rest0.length := takeAnys_snd_le rest0
      let anys := a :: (takeAnys rest0).1
      let rest := (takeAnys rest0).2
      let dst' := insertSliceAt dst j (anys.map DocElem.plain)
      let r := insert_at fuel heap dst' (j + anys.length) rest
      { r with ops := .rangeInsert anys :: r.ops }
    | none =>
      match into_content heap v with
      | .error e => { heap := heap, dst := dst, ops := [], err := some e }
      | .ok (.anyC _) =>
        { heap := heap, dst := dst, ops := [], err := some (.panic unreachableMsg) }
      | .ok (.typeC h) =>
        let dst' := insertSliceAt dst j [DocElem.ctr h]
        let g := integrate fuel heap h
        match g.err with
        | some e => { heap := g.heap, dst := dst', ops := [.containerAttach h], err := some e }
        | none =>
          let r := insert_at fuel g.heap dst' (j + 1) rest0
          { r with ops := .containerAttach h :: r.ops }
termination_by (fuel, src.length + 2)

/-- Prelim::integrate (`type_conversions.rs` lines 193-233 and 377-415; the
two impls are identical): replays a preliminary handle's buffer into its
fresh branch — a text buffer by one push, an array buffer through `insert_at`
at index 0 of the empty branch, a map buffer by inserting every entry (each
value recursively through the same integration logic) — then marks the
handle `Integrated` with the branch.  On a handle that is not preliminary the
source's `is_prelim` guard makes it a no-op.  `fuel` bounds the nesting
depth (the source is bounded only by the call stack). -/
def integrate (fuel : Nat) (heap : Heap) (h : Nat) : IntgRes :=
  match fuel with
  | 0 => { heap := heap, err := some (.panic fuelMsg) }
  | f + 1 =>
    match lookupH heap h with
    | some (.prelimText s) => { heap := setH heap h (.integText s), err := none }
    | some (.prelimArr buf) =>
      let r := insert_at f heap [] 0 buf
      match r.err with
      | none => { heap := setH r.heap h (.integArr r.dst), err := none }
      | some e => { heap := r.heap, err := some e }
    | some (.prelimMap buf) =>
      let r := mapInsertAll f heap [] buf
      match r.err with
      | none => { heap := setH r.heap h (.integMap r.map), err := none }
      | some e => { heap := r.heap, err := some e }
    | _ => { heap := heap, err := none }
termination_by (fuel, 0)

/-- One map-branch insertion (`yrs::Map::insert` invoked with a
`PyValueWrapper`, as in the map replay loop): classify through
`into_content`; a panic there leaves the map untouched; a plain value is
stored under the key; a preliminary container is stored as its fresh branch
and then replayed via `integrate` (the entry is committed before the replay
runs, as in the engine). -/
def mapInsert (fuel : Nat) (heap : Heap) (m : List (String × DocElem)) (k : String)
    (v : PyValue) : MapRes :=
  match into_content heap v with
  | .error e => { heap := heap, map := m, err := some e }
  | .ok (.anyC a) => { heap := heap, map := setEntry m k (.plain a), err := none }
  | .ok (.typeC h) =>
    let m' := setEntry m k (.ctr h)
    let g := integrate fuel heap h
    { heap := g.heap, map := m', err := g.err }
termination_by (fuel, 1)

/-- The map replay loop `for (k, v) in entries { map.insert(txn, k, ...) }`:
sequential insertion; a panic aborts the loop, keeping the entries already
committed. -/
def mapInsertAll (fuel : Nat) (heap : Heap) (m : List (String × DocElem))
    (entries : List (String × PyValue)) : MapRes :=
  match entries with
  | [] => { heap := heap, map := m, err := none }
  | (k, v) :: rest =>
    let r := mapInsert fuel heap m k v
    match r.err with
    | some e => { heap := r.heap, map := r.map, err := some e }
    | none => mapInsertAll fuel r.heap r.map rest
termination_by (fuel, entries.length + 2)

end

/-! ### Unfolding equations for the integration functions -/

theorem insert_at_nil (fuel : Nat) (heap : Heap) (dst : List DocElem) (j : Nat) :
    insert_at fuel heap dst j [] = ⟨heap, dst, [], none⟩ := by
  simp [insert_at]

theorem insert_at_cons_plain (fuel : Nat) (heap : Heap) (dst : List DocElem) (j : Nat)
    {v : PyValue} (rest0 : List PyValue) {a : Any} (hv : py_into_any v = some a) :
    insert_at fuel heap dst j (v :: rest0) =
      { insert_at fuel heap
          (insertSliceAt dst j ((a :: (takeAnys rest0).1).map DocElem.plain))
          (j + (a :: (takeAnys rest0).1).length) (takeAnys rest0).2 with
        ops := .rangeInsert (a :: (takeAnys rest0).1) ::
          (insert_at fuel heap
            (insertSliceAt dst j ((a :: (takeAnys rest0).1).map DocElem.plain))
            (j + (a :: (takeAnys rest0).1).length) (takeAnys rest0).2).ops } := by
  rw [insert_at]
  simp [hv]

theorem insert_at_cons_ctr_err (fuel : Nat) (heap : Heap) (dst : List DocElem) (j : Nat)
    {v : PyValue} (rest0 : List PyValue) {e : Err} (hv : py_into_any v = none)
    (hc : into_content heap v = .error e) :
    insert_at fuel heap dst j (v :: rest0) = ⟨heap, dst, [], some e⟩ := by
  rw [insert_at]
  simp [hv, hc]

theorem insert_at_cons_ctr_ierr (fuel : Nat) (heap : Heap) (dst : List DocElem) (j : Nat)
    {v : PyValue} (rest0 : List PyValue) {h : Nat} {e : Err} (hv : py_into_any v = none)
    (hc : into_content heap v = .ok (.typeC h))
    (he : (integrate fuel heap h).err = some e) :
    insert_at fuel heap dst j (v :: rest0) =
      ⟨(integrate fuel heap h).heap, insertSliceAt dst j [DocElem.ctr h],
        [.containerAttach h], some e⟩ := by
  rw [insert_at]
  simp [hv, hc, he]

theorem insert_at_cons_ctr_ok (fuel : Nat) (heap : Heap) (dst : List DocElem) (j : Nat)
    {v : PyValue} (rest0 : List PyValue) {h : Nat} (hv : py_into_any v = none)
    (hc : into_content heap v = .ok (.typeC h))
    (he : (integrate fuel heap h).err = none) :
    insert_at fuel heap dst j (v :: rest0) =
      { insert_at fuel (integrate fuel heap h).heap
          (insertSliceAt dst j [DocElem.ctr h]) (j + 1) rest0 with
        ops := .containerAttach h ::
          (insert_at fuel (integrate fuel heap h).heap
            (insertSliceAt dst j [DocElem.ctr h]) (j + 1) rest0).ops } := by
  rw [insert_at]
  simp [hv, hc, he]

theorem integrate_zero (heap : Heap) (h : Nat) :
    integrate 0 heap h = ⟨heap, some (.panic fuelMsg)⟩ := by
  simp [integrate]

theorem integrate_succ_text (f : Nat) (heap : Heap) (h : Nat) {s : String}
    (hl : lookupH heap h = some (.prelimText s)) :
    integrate (f + 1) heap h = ⟨setH heap h (.integText s), none⟩ := by
  rw [integrate]
  simp [hl]

theorem integrate_succ_arr (f : Nat) (heap : Heap) (h : Nat) {buf : List PyValue}
    (hl : lookupH heap h = some (.prelimArr buf)) :
    integrate (f + 1) heap h =
      match (insert_at f heap [] 0 buf).err with
      | none =>
        ⟨setH (insert_at f heap [] 0 buf).heap h (.integArr (insert_at f heap [] 0 buf).dst),
          none⟩
      | some e => ⟨(insert_at f heap [] 0 buf).heap, some e⟩ := by
  rw [integrate]
  simp [hl]

theorem integrate_succ_map (f : Nat) (heap : Heap) (h : Nat)
    {buf : List (String × PyValue)} (hl : lookupH heap h = some (.prelimMap buf)) :
    integrate (f + 1) heap h =
      match (mapInsertAll f heap [] buf).err with
      | none =>
        ⟨setH (mapInsertAll f heap [] buf).heap h (.integMap (mapInsertAll f heap [] buf).map),
          none⟩
      | some e => ⟨(mapInsertAll f heap [] buf).heap, some e⟩ := by
  rw [integrate]
  simp [hl]

theorem integrate_succ_nonprelim (f : Nat) (heap : Heap) (h : Nat) {s : HState}
    (hl : lookupH heap h = some s) (hs : s.isPrelim = false) :
    integrate (f + 1) heap h = ⟨heap, none⟩ := by
  rw [integrate]
  cases s <;> simp_all [HState.isPrelim]

theorem integrate_succ_missing (f : Nat) (heap : Heap) (h : Nat)
    (hl : lookupH heap h = none) :
    integrate (f + 1) heap h = ⟨heap, none⟩ := by
  rw [integrate]
  simp [hl]

theorem mapInsert_err (fuel : Nat) (heap : Heap) (m : List (String × DocElem)) (k : String)
    {v : PyValue} {e : Err} (hc : into_content heap v = .error e) :
    mapInsert fuel heap m k v = ⟨heap, m, some e⟩ := by
  rw [mapInsert]
  simp [hc]

theorem mapInsert_plain (fuel : Nat) (heap : Heap) (m : List (String × DocElem)) (k : String)
    {v : PyValue} {a : Any} (hc : into_content heap v = .ok (.anyC a)) :
    mapInsert fuel heap m k v = ⟨heap, setEntry m k (.plain a), none⟩ := by
  rw [mapInsert]
  simp [hc]

theorem mapInsert_ctr (fuel : Nat) (heap : Heap) (m : List (String × DocElem)) (k : String)
    {v : PyValue} {h : Nat} (hc : into_content heap v = .ok (.typeC h)) :
    mapInsert fuel heap m k v =
      ⟨(integrate fuel heap h).heap, setEntry m k (.ctr h), (integrate fuel heap h).err⟩ := by
  rw [mapInsert]
  simp [hc]

theorem mapInsertAll_nil (fuel : Nat) (heap : Heap) (m : List (String × DocElem)) :
    mapInsertAll fuel heap m [] = ⟨heap, m, none⟩ := by
  simp [mapInsertAll]

theorem mapInsertAll_cons_err (fuel : Nat) (heap : Heap) (m : List (String × DocElem))
    {k : String} {v : PyValue} (rest : List (String × PyValue)) {e : Err}
    (he : (mapInsert fuel heap m k v).err = some e) :
    mapInsertAll fuel heap m ((k, v) :: rest) =
      ⟨(mapInsert fuel heap m k v).heap, (mapInsert fuel heap m k v).map, some e⟩ := by
  rw [mapInsertAll]
  simp [he]

theorem mapInsertAll_cons_ok (fuel : Nat) (heap : Heap) (m : List (String × DocElem))
    {k : String} {v : PyValue} (rest : List (String × PyValue))
    (he : (mapInsert fuel heap m k v).err = none) :
    mapInsertAll fuel heap m ((k, v) :: rest) =
      mapInsertAll fuel (mapInsert fuel heap m k v).heap (mapInsert fuel heap m k v).map rest := by
  rw [mapInsertAll]
  simp [he]

/-! ### Heap lemmas and heap monotonicity -/

theorem into_content_anyC {heap : Heap} {v : PyValue} {a : Any}
    (h : into_content heap v = .ok (.anyC a)) : py_into_any v = some a := by
  unfold into_content at h
  cases hv : py_into_any v with
  | some a' =>
    rw [hv] at h
    injection h with h
    injection h with h
    rw [h]
  | none =>
    rw [hv] at h
    cases v <;> simp at h
    rename_i h'
    cases hl : lookupH heap h' <;> rw [hl] at h <;> simp at h
    split at h <;> simp at h

/-- A handle is integrated in the heap (present and not preliminary). -/
def integratedAt (heap : Heap) (h : Nat) : Bool :=
  match lookupH heap h with
  | some s => ! s.isPrelim
  | none => false

/-- Heap evolution that never demotes an integrated handle: the core
invariant behind the irreversibility of the Preliminary → Integrated
transition. -/
def heapMono (h1 h2 : Heap) : Prop :=
  ∀ h : Nat, integratedAt h1 h = true → integratedAt h2 h = true

theorem heapMono_refl (heap : Heap) : heapMono heap heap := fun _ hh => hh

theorem heapMono_trans {a b c : Heap} (h1 : heapMono a b) (h2 : heapMono b c) :
    heapMono a c := fun h hh => h2 h (h1 h hh)

theorem lookupH_setH_self : ∀ (heap : Heap) (h : Nat) (s : HState),
    lookupH (setH heap h s) h = some s := by
  intro heap h s
  induction heap with
  | nil => simp [setH, lookupH]
  | cons p rest ih =>
    obtain ⟨k, s'⟩ := p
    by_cases hk : k = h
    · subst hk
      simp [setH, lookupH]
    · simp [setH, lookupH, hk, ih]

theorem lookupH_setH_ne : ∀ (heap : Heap) (h h' : Nat) (s : HState), h' ≠ h →
    lookupH (setH heap h s) h' = lookupH heap h' := by
  intro heap h h' s hne
  induction heap with
  | nil => simp [setH, lookupH, Ne.symm hne]
  | cons p rest ih =>
    obtain ⟨k, s'⟩ := p
    by_cases hk : k = h
    · subst hk
      simp [setH, lookupH, Ne.symm hne]
    · simp [setH, lookupH, hk, ih]

theorem heapMono_setH (heap : Heap) (h : Nat) (s : HState) (hs : s.isPrelim = false) :
    heapMono heap (setH heap h s) := by
  intro h' hh'
  by_cases hne : h' = h
  · subst hne
    simp [integratedAt, lookupH_setH_self, hs]
  · simpa [integratedAt, lookupH_setH_ne heap h h' s hne] using hh'

theorem insert_at_heapMono (fuel : Nat)
    (hint : ∀ (heap : Heap) (h : Nat), heapMono heap (integrate fuel heap h).heap) :
    ∀ (src : List PyValue) (heap : Heap) (dst : List DocElem) (j : Nat),
      heapMono heap (insert_at fuel heap dst j src).heap
  | [], heap, dst, j => by
    rw [insert_at_nil]
    exact heapMono_refl heap
  | v :: rest0, heap, dst, j => by
    cases hv : py_into_any v with
    | some a =>
      rw [insert_at_cons_plain fuel heap dst j rest0 hv]
      have hb : (takeAnys rest0).2.length ≤ rest0.length := takeAnys_snd_le rest0
      exact insert_at_heapMono fuel hint (takeAnys rest0).2 heap _ _
    | none =>
      cases hc : into_content heap v with
      | error e =>
        rw [insert_at_cons_ctr_err fuel heap dst j rest0 hv hc]
        exact heapMono_refl heap
      | ok c =>
        cases c with
        | anyC a => exact absurd (into_content_anyC hc) (by simp [hv])
        | typeC h =>
          cases he : (integrate fuel heap h).err with
          | some e =>
            rw [insert_at_cons_ctr_ierr fuel heap dst j rest0 hv hc he]
            exact hint heap h
          | none =>
            rw [insert_at_cons_ctr_ok fuel heap dst j rest0 hv hc he]
            exact heapMono_trans (hint heap h)
              (insert_at_heapMono fuel hint rest0 (integrate fuel heap h).heap _ _)
termination_by src heap dst j => src.length
decreasing_by
  all_goals simp_wf
  all_goals try simp [List.length_cons]
  all_goals omega

theorem mapInsert_heapMono (fuel : Nat)
    (hint : ∀ (heap : Heap) (h : Nat), heapMono heap (integrate fuel heap h).heap)
    (heap : Heap) (m : List (String × DocElem)) (k : String) (v : PyValue) :
    heapMono heap (mapInsert fuel heap m k v).heap := by
  cases hc : into_content heap v with
  | error e =>
    rw [mapInsert_err fuel heap m k hc]
    exact heapMono_refl heap
  | ok c =>
    cases c with
    | anyC a =>
      rw [mapInsert_plain fuel heap m k hc]
      exact heapMono_refl heap
    | typeC h =>
      rw [mapInsert_ctr fuel heap m k hc]
      exact hint heap h

theorem mapInsertAll_heapMono (fuel : Nat)
    (hint : ∀ (heap : Heap) (h : Nat), heapMono heap (integrate fuel heap h).heap) :
    ∀ (entries : List (String × PyValue)) (heap : Heap) (m : List (String × DocElem)),
      heapMono heap (mapInsertAll fuel heap m entries).heap := by
  intro entries
  induction entries with
  | nil =>
    intro heap m
    rw [mapInsertAll_nil]
    exact heapMono_refl heap
  | cons p rest ih =>
    intro heap m
    obtain ⟨k, v⟩ := p
    cases he : (mapInsert fuel heap m k v).err with
    | some e =>
      rw [mapInsertAll_cons_err fuel heap m rest he]
      exact mapInsert_heapMono fuel hint heap m k v
    | none =>
      rw [mapInsertAll_cons_ok fuel heap m rest he]
      exact heapMono_trans (mapInsert_heapMono fuel hint heap m k v) (ih _ _)

/-- An integrated handle is never demoted by `integrate`, at any fuel. -/
theorem integrate_heapMono : ∀ (fuel : Nat) (heap : Heap) (h : Nat),
    heapMono heap (integrate fuel heap h).heap := by
  intro fuel
  induction fuel with
  | zero =>
    intro heap h
    rw [integrate_zero]
    exact heapMono_refl heap
  | succ f ih =>
    intro heap h
    cases hl : lookupH heap h with
    | none =>
      rw [integrate_succ_missing f heap h hl]
      exact heapMono_refl heap
    | some s =>
      cases s with
      | prelimText s' =>
        rw [integrate_succ_text f heap h hl]
        exact heapMono_setH heap h _ rfl
      | prelimArr buf =>
        rw [integrate_succ_arr f heap h hl]
        have hm : heapMono heap (insert_at f heap [] 0 buf).heap :=
          insert_at_heapMono f ih buf heap [] 0
        cases he : (insert_at f heap [] 0 buf).err with
        | none => exact heapMono_trans hm (heapMono_setH _ h _ rfl)
        | some e => exact hm
      | prelimMap buf =>
        rw [integrate_succ_map f heap h hl]
        have hm : heapMono heap (mapInsertAll f heap [] buf).heap :=
          mapInsertAll_heapMono f ih buf heap []
        cases he : (mapInsertAll f heap [] buf).err with
        | none => exact heapMono_trans hm (heapMono_setH _ h _ rfl)
        | some e => exact hm
      | integText s' =>
        rw [integrate_succ_nonprelim f heap h hl rfl]
        exact heapMono_refl heap
      | integArr elems =>
        rw [integrate_succ_nonprelim f heap h hl rfl]
        exact heapMono_refl heap
      | integMap entries =>
        rw [integrate_succ_nonprelim f heap h hl rfl]
        exact heapMono_refl heap

theorem insert_at_heapMono' (fuel : Nat) (heap : Heap) (dst : List DocElem) (j : Nat)
    (src : List PyValue) : heapMono heap (insert_at fuel heap dst j src).heap :=
  insert_at_heapMono fuel (integrate_heapMono fuel) src heap dst j

theorem mapInsert_heapMono' (fuel : Nat) (heap : Heap) (m : List (String × DocElem))
    (k : String) (v : PyValue) : heapMono heap (mapInsert fuel heap m k v).heap :=
  mapInsert_heapMono fuel (integrate_heapMono fuel) heap m k v

theorem mapInsertAll_heapMono' (fuel : Nat) (heap : Heap) (m : List (String × DocElem))
    (entries : List (String × PyValue)) : heapMono heap (mapInsertAll fuel heap m entries).heap :=
  mapInsertAll_heapMono fuel (integrate_heapMono fuel) entries heap m

/-! ### Classification helpers and the spec-side insertion plan -/

/-- A host value is plain when the codec accepts it (`classify = Plain`). -/
def isPlain (v : PyValue) : Bool := (py_into_any v).isSome

/-- Handle id of a shared value (0 for non-handles; only applied to handles). -/
def sharedId : PyValue → Nat
  | .vshared h => h
  | _ => 0

/-- The document element a host value becomes when inserted: its encoding as
one plain element, or its attached container branch. -/
def elemOf (v : PyValue) : DocElem :=
  match py_into_any v with
  | some a => .plain a
  | none => .ctr (sharedId v)

/-- The handle ids appearing (at top level) in an input list. -/
def sharedIds (src : List PyValue) : List Nat :=
  src.filterMap fun v =>
    match v with
    | .vshared h => some h
    | _ => none

/-- Values whose insertion surely succeeds against `heap` without deep
nesting: plain values, and preliminary handles whose buffers contain only
plain values.  The ordering theorems quantify over such inputs. -/
def shallowOk (heap : Heap) (v : PyValue) : Bool :=
  (py_into_any v).isSome ||
    match v with
    | .vshared h =>
      match lookupH heap h with
      | some (.prelimText _) => true
      | some (.prelimArr buf) => buf.all fun x => (py_into_any x).isSome
      | some (.prelimMap buf) => buf.all fun kv => (py_into_any kv.2).isSome
      | _ => false
    | _ => false

/-- The map state after inserting a list of plain-valued entries in order
(each through the codec); used to state what a partially-failing batch map
insertion has committed. -/
def applyPlainEntries (m : List (String × DocElem)) :
    List (String × PyValue) → List (String × DocElem)
  | [] => m
  | (k, v) :: rest =>
    match py_into_any v with
    | some a => applyPlainEntries (setEntry m k (.plain a)) rest
    | none => m

/-- Modelled from the spec: the greedy maximal-run partition of §4.3 — scan
left to right; a maximal run of plain values becomes exactly one range-insert
op; each container value becomes exactly one container-attach op.  Stated
with `takeWhile`/`dropWhile` so that maximality is by construction; the
planner `insert_at` is proved to emit exactly this op sequence. -/
def planOpsSpec : List PyValue → List Op
  | [] => []
  | v :: rest =>
    if h : isPlain v then
      have hlen : (List.dropWhile isPlain rest).length ≤ rest.length :=
        (List.dropWhile_sublist isPlain).length_le
      .rangeInsert (((v :: rest).takeWhile isPlain).filterMap py_into_any) ::
        planOpsSpec ((v :: rest).dropWhile isPlain)
    else
      .containerAttach (sharedId v) :: planOpsSpec rest
termination_by l => l.length
decreasing_by
  all_goals simp_wf
  all_goals simp [List.dropWhile_cons, h]
  all_goals omega

/-! ### The YArray model (`y_array.rs`) -/

/-- SharedType from `shared_types.rs`: the two lifecycle states of a shared
container, generic over the integrated and preliminary payloads (its shape is
pinned by the pattern matches in `y_array.rs` lines 60-73 and throughout). -/
inductive SharedType (T P : Type) where
  | integrated (v : T)
  | prelim (v : P)

/-- YArray(SharedType<Array, Vec<PyObject>>): an integrated tree branch
(contents stored inline) or a preliminary buffer of host values. -/
abbrev YArrayState := SharedType (List DocElem) (List PyValue)

/-- Result of a heap-touching YArray operation. -/
structure ArrRes where
  heap : Heap
  arr : YArrayState
  err : Option Err

/-- YArray::length (`y_array.rs` lines 68-74). -/
def YArrayState.length : YArrayState → Nat
  | .integrated v => v.length
  | .prelim v => v.length

/-- YArray::insert (`y_array.rs` lines 88-101): integrated arrays go through
the batch planner `insert_at`; preliminary arrays splice the items into the
local buffer one by one (`vec.insert(j, el); j += 1`, which is exactly a
splice; `Vec::insert` panics for an index beyond the length — the model is
total and the theorems hypothesize `index ≤ length`). -/
def YArrayState.insert (fuel : Nat) (heap : Heap) (a : YArrayState) (index : Nat)
    (items : List PyValue) : ArrRes :=
  match a with
  | .integrated elems =>
    let r := insert_at fuel heap elems index items
    { heap := r.heap, arr := .integrated r.dst, err := r.err }
  | .prelim vec =>
    { heap := heap, arr := .prelim (insertSliceAt vec index items), err := none }

/-- YArray::push (`y_array.rs` lines 104-107): insert at the current length. -/
def YArrayState.push (fuel : Nat) (heap : Heap) (a : YArrayState)
    (items : List PyValue) : ArrRes :=
  YArrayState.insert fuel heap a (YArrayState.length a) items

/-- Decoding of one stored element on read-back (`Value::into_py`): a plain
`Any` decodes through the codec; a container element is wrapped in a fresh
handle around its branch. -/
def decodeElem : DocElem → PyValue
  | .plain a => a.into_py
  | .ctr h => .vshared h

/-- YArray::get (`y_array.rs` lines 121-142): both states answer an
out-of-bounds read with `PyIndexError("Index outside the bounds of an
YArray")` and perform no mutation (the engine's `get` yielding `None` beyond
the length, per §6). -/
def YArrayState.get (a : YArrayState) (index : Nat) : Except Err PyValue :=
  match a with
  | .integrated v =>
    match v.get? index with
    | some e => .ok (decodeElem e)
    | none => .error (.indexError yarrayBoundsMsg)
  | .prelim v =>
    match v.get? index with
    | some x => .ok x
    | none => .error (.indexError yarrayBoundsMsg)

/-- Message of the engine's out-of-range range-delete report on an integrated
array (`yrs::Array::remove_range` is the external engine; modelled from the
spec, §6/§7: out-of-range is reported and nothing is removed). -/
def rangeDeleteMsg : String := "range delete out of bounds"

/-- YArray::delete (`y_array.rs` lines 111-118).  Integrated:
`v.remove_range(txn, index, length)` — the external engine, modelled from the
spec as reporting out-of-range with no mutation.  Preliminary:
`v.drain(index..index+length)` — Rust's `Vec::drain`, which removes the range
when in bounds and otherwise panics with a slice-bounds panic (not a
`PyIndexError`) before removing anything. -/
def YArrayState.delete (a : YArrayState) (index length : Nat) : Except Err YArrayState :=
  match a with
  | .integrated v =>
    if index + length ≤ v.length then
      .ok (.integrated (v.take index ++ v.drop (index + length)))
    else .error (.indexError rangeDeleteMsg)
  | .prelim v =>
    if index + length ≤ v.length then
      .ok (.prelim (v.take index ++ v.drop (index + length)))
    else .error (.panic drainBoundsMsg)

/-! ### Splice and run lemmas -/

theorem insertSliceAt_nil_right {α : Type} (l : List α) (j : Nat) :
    insertSliceAt l j [] = l := by
  simp [insertSliceAt]

theorem insertSliceAt_at_length {α : Type} (l : List α) (xs : List α) :
    insertSliceAt l l.length xs = l ++ xs := by
  simp [insertSliceAt]

theorem insertSliceAt_append {α : Type} (l : List α) (j : Nat) (A B : List α) :
    insertSliceAt (insertSliceAt l j A) (j + A.length) B = insertSliceAt l j (A ++ B) := by
  unfold insertSliceAt
  by_cases hj : j ≤ l.length
  · have h1 : ((l.take j ++ A) ++ l.drop j).take (j + A.length) = l.take j ++ A :=
      List.take_left' (by simp [List.length_take]; omega)
    have h2 : ((l.take j ++ A) ++ l.drop j).drop (j + A.length) = l.drop j :=
      List.drop_left' (by simp [List.length_take]; omega)
    rw [h1, h2]
    simp [List.append_assoc]
  · have hl : l.take j = l := List.take_of_length_le (by omega)
    have hd : l.drop j = [] := List.drop_eq_nil_of_le (by omega)
    rw [hl, hd]
    have h1 : ((l ++ A) ++ ([] : List α)).take (j + A.length) = l ++ A := by
      rw [List.append_nil]
      exact List.take_of_length_le (by simp [List.length_append]; omega)
    have h2 : ((l ++ A) ++ ([] : List α)).drop (j + A.length) = [] := by
      rw [List.append_nil]
      exact List.drop_eq_nil_of_le (by simp [List.length_append]; omega)
    rw [h1, h2]
    simp [List.append_assoc]

theorem get?_insertSliceAt {α : Type} (l : List α) (j : Nat) (xs : List α) (k : Nat)
    (hj : j ≤ l.length) (hk : k < xs.length) :
    (insertSliceAt l j xs).get? (j + k) = xs.get? k := by
  unfold insertSliceAt
  have hlen : (l.take j).length = j := by simp [List.length_take]; omega
  rw [List.append_assoc,
    List.get?_append_right (by omega : (l.take j).length ≤ j + k),
    List.get?_append (by omega : j + k - (l.take j).length < xs.length)]
  congr 1
  omega

theorem takeAnys_eq_span : ∀ src : List PyValue,
    takeAnys src = ((src.takeWhile isPlain).filterMap py_into_any, src.dropWhile isPlain) := by
  intro src
  induction src with
  | nil => simp [takeAnys]
  | cons v rest ih =>
    cases hv : py_into_any v with
    | some a =>
      have hp : isPlain v = true := by simp [isPlain, hv]
      simp [takeAnys, hv, List.takeWhile_cons, List.dropWhile_cons, hp, ih]
    | none =>
      have hp : isPlain v = false := by simp [isPlain, hv]
      simp [takeAnys, hv, List.takeWhile_cons, List.dropWhile_cons, hp]

theorem takeAnys_all_plain (src : List PyValue) (hp : ∀ v ∈ src, isPlain v = true) :
    takeAnys src = (src.filterMap py_into_any, []) := by
  rw [takeAnys_eq_span]
  have ht : src.takeWhile isPlain = src := List.takeWhile_eq_self_iff.mpr hp
  have hd : src.dropWhile isPlain = [] := List.dropWhile_eq_nil_iff.mpr hp
  rw [ht, hd]

theorem map_elemOf_all_plain : ∀ src : List PyValue, (∀ v ∈ src, isPlain v = true) →
    src.map elemOf = (src.filterMap py_into_any).map DocElem.plain := by
  intro src
  induction src with
  | nil => simp
  | cons v rest ih =>
    intro hp
    have hv : isPlain v = true := hp v (by simp)
    obtain ⟨a, ha⟩ := Option.isSome_iff_exists.mp hv
    simp [elemOf, ha, ih fun x hx => hp x (by simp [hx])]

theorem into_content_plain {heap : Heap} {v : PyValue} {a : Any}
    (hv : py_into_any v = some a) : into_content heap v = .ok (.anyC a) := by
  simp [into_content, hv]

theorem into_content_prelim {heap : Heap} {h : Nat} {s : HState}
    (hl : lookupH heap h = some s) (hs : s.isPrelim = true) :
    into_content heap (.vshared h) = .ok (.typeC h) := by
  simp [into_content, py_into_any, hl, hs]

theorem into_content_nonprelim {heap : Heap} {h : Nat} {s : HState}
    (hl : lookupH heap h = some s) (hs : s.isPrelim = false) :
    into_content heap (.vshared h) = .error (.panic cannotIntegrateMsg) := by
  simp [into_content, py_into_any, hl, hs]

theorem insert_at_all_plain (fuel : Nat) (heap : Heap) (dst : List DocElem) (j : Nat)
    (src : List PyValue) (hp : ∀ v ∈ src, isPlain v = true) :
    insert_at fuel heap dst j src =
      ⟨heap, insertSliceAt dst j (src.map elemOf),
        if src.isEmpty then [] else [.rangeInsert (src.filterMap py_into_any)], none⟩ := by
  cases src with
  | nil => rw [insert_at_nil]; simp [insertSliceAt_nil_right]
  | cons v rest0 =>
    have hv : isPlain v = true := hp v (by simp)
    obtain ⟨a, ha⟩ := Option.isSome_iff_exists.mp hv
    rw [insert_at_cons_plain fuel heap dst j rest0 ha]
    have hta := takeAnys_all_plain rest0 fun x hx => hp x (by simp [hx])
    rw [hta]
    rw [insert_at_nil]
    have hmap : (v :: rest0).map elemOf =
        ((a :: rest0.filterMap py_into_any).map DocElem.plain) := by
      rw [map_elemOf_all_plain (v :: rest0) hp]
      simp [ha]
    simp [hmap, ha]

theorem mapInsertAll_all_plain (fuel : Nat) :
    ∀ (es : List (String × PyValue)) (heap : Heap) (m : List (String × DocElem)),
      (∀ kv ∈ es, isPlain kv.2 = true) →
      mapInsertAll fuel heap m es = ⟨heap, applyPlainEntries m es, none⟩ := by
  intro es
  induction es with
  | nil => intro heap m _; rw [mapInsertAll_nil]; rfl
  | cons p rest ih =>
    intro heap m hp
    obtain ⟨k, v⟩ := p
    have hv : isPlain v = true := hp (k, v) (by simp)
    obtain ⟨a, ha⟩ := Option.isSome_iff_exists.mp hv
    have hmi : mapInsert fuel heap m k v = ⟨heap, setEntry m k (.plain a), none⟩ :=
      mapInsert_plain fuel heap m k (into_content_plain ha)
    rw [mapInsertAll_cons_ok fuel heap m rest (by rw [hmi]), hmi,
      ih heap (setEntry m k (.plain a)) fun kv hkv => hp kv (by simp [hkv])]
    simp [applyPlainEntries, ha]

theorem integrate_shallow (f : Nat) (heap : Heap) (h : Nat)
    (hsh : shallowOk heap (.vshared h) = true) :
    ∃ S : HState, S.isPrelim = false ∧ integrate (f + 1) heap h = ⟨setH heap h S, none⟩ := by
  have hsh' := hsh
  rw [shallowOk] at hsh'
  simp only [py_into_any, Option.isSome_none, Bool.false_or] at hsh'
  cases hl : lookupH heap h with
  | none => rw [hl] at hsh'; simp at hsh'
  | some s =>
    rw [hl] at hsh'
    cases s with
    | prelimText s' => exact ⟨.integText s', rfl, integrate_succ_text f heap h hl⟩
    | prelimArr buf =>
      have hp : ∀ v ∈ buf, isPlain v = true := by
        intro v hv
        have := (List.all_eq_true.mp hsh') v hv
        simpa [isPlain] using this
      refine ⟨.integArr (buf.map elemOf), rfl, ?_⟩
      rw [integrate_succ_arr f heap h hl, insert_at_all_plain f heap [] 0 buf hp]
      simp [insertSliceAt]
    | prelimMap buf =>
      have hp : ∀ kv ∈ buf, isPlain kv.2 = true := by
        intro kv hkv
        have := (List.all_eq_true.mp hsh') kv hkv
        simpa [isPlain] using this
      refine ⟨.integMap (applyPlainEntries [] buf), rfl, ?_⟩
      rw [integrate_succ_map f heap h hl, mapInsertAll_all_plain f buf heap [] hp]
    | integText s' => simp at hsh'
    | integArr elems => simp at hsh'
    | integMap entries => simp at hsh'

/-! ### The ordering and minimal-ops theorem for the planner -/

theorem planOpsSpec_nil : planOpsSpec [] = [] := by
  simp [planOpsSpec]

theorem planOpsSpec_cons_plain {v : PyValue} (rest : List PyValue) (h : isPlain v = true) :
    planOpsSpec (v :: rest) =
      .rangeInsert (((v :: rest).takeWhile isPlain).filterMap py_into_any) ::
        planOpsSpec ((v :: rest).dropWhile isPlain) := by
  rw [planOpsSpec]
  simp [h]

theorem planOpsSpec_cons_ctr {v : PyValue} (rest : List PyValue) (h : isPlain v = false) :
    planOpsSpec (v :: rest) = .containerAttach (sharedId v) :: planOpsSpec rest := by
  rw [planOpsSpec]
  simp [h]

theorem shallowOk_congr (heap heap' : Heap) (v : PyValue)
    (hl : ∀ h : Nat, v = .vshared h → lookupH heap' h = lookupH heap h) :
    shallowOk heap' v = shallowOk heap v := by
  cases v <;> simp [shallowOk]
  rename_i h
  rw [hl h rfl]

theorem shared_of_shallow {heap : Heap} {v : PyValue} (hv : py_into_any v = none)
    (hsh : shallowOk heap v = true) : ∃ h : Nat, v = .vshared h := by
  cases v <;> simp_all [shallowOk]

theorem into_content_shallow {heap : Heap} {h : Nat}
    (hsh : shallowOk heap (.vshared h) = true) :
    into_content heap (.vshared h) = .ok (.typeC h) := by
  have hsh' := hsh
  rw [shallowOk] at hsh'
  simp only [py_into_any, Option.isSome_none, Bool.false_or] at hsh'
  cases hl : lookupH heap h with
  | none => rw [hl] at hsh'; simp at hsh'
  | some s =>
    rw [hl] at hsh'
    cases s <;> simp at hsh' <;> exact into_content_prelim hl rfl

theorem sharedIds_cons_shared (h : Nat) (rest : List PyValue) :
    sharedIds (.vshared h :: rest) = h :: sharedIds rest := by
  simp [sharedIds]

theorem sharedIds_cons_plain {v : PyValue} (rest : List PyValue) (hp : isPlain v = true) :
    sharedIds (v :: rest) = sharedIds rest := by
  cases v <;> simp_all [sharedIds, isPlain, py_into_any]

theorem sharedIds_sublist {l1 l2 : List PyValue} (h : l1.Sublist l2) :
    (sharedIds l1).Sublist (sharedIds l2) :=
  List.Sublist.filterMap _ h

theorem mem_sharedIds_of_mem {rest : List PyValue} {h2 : Nat}
    (hx : PyValue.vshared h2 ∈ rest) : h2 ∈ sharedIds rest := by
  induction rest with
  | nil => simp at hx
  | cons w tail ih =>
    rcases List.mem_cons.mp hx with hw | hw
    · subst hw
      simp [sharedIds]
    · have := ih hw
      cases w <;> simp [sharedIds] at this ⊢ <;> simp [this]

/-- Core ordering, minimal-ops, and error-freedom result for the batch
insertion planner on inputs of plain values and shallow preliminary handles
(pairwise-distinct handle ids): the branch contents become exactly the input
images in input order, spliced at the cursor; the op trace is exactly the
spec's greedy maximal-run partition; no panic occurs. -/
theorem insert_at_ordered : ∀ (src : List PyValue) (fuel : Nat) (heap : Heap)
    (dst : List DocElem) (j : Nat), 1 ≤ fuel →
    (∀ v ∈ src, shallowOk heap v = true) → (sharedIds src).Nodup →
    (insert_at fuel heap dst j src).dst = insertSliceAt dst j (src.map elemOf) ∧
    (insert_at fuel heap dst j src).ops = planOpsSpec src ∧
    (insert_at fuel heap dst j src).err = none
  | [], fuel, heap, dst, j, hf, hok, hnd => by
    rw [insert_at_nil]
    simp [insertSliceAt_nil_right, planOpsSpec_nil]
  | v :: rest0, fuel, heap, dst, j, hf, hok, hnd => by
    cases hv : py_into_any v with
    | some a =>
      have hvp : isPlain v = true := by simp [isPlain, hv]
      have hspan := takeAnys_eq_span rest0
      have h1 : (takeAnys rest0).1 = (rest0.takeWhile isPlain).filterMap py_into_any := by
        rw [hspan]
      have h2 : (takeAnys rest0).2 = rest0.dropWhile isPlain := by rw [hspan]
      have hb : (takeAnys rest0).2.length ≤ rest0.length := takeAnys_snd_le rest0
      have hsubr : (takeAnys rest0).2.Sublist (v :: rest0) := by
        rw [h2]
        exact (List.dropWhile_sublist isPlain).trans (List.sublist_cons_self v rest0)
      have hXd : (insert_at fuel heap dst j (v :: rest0)).dst =
          (insert_at fuel heap
            (insertSliceAt dst j ((a :: (takeAnys rest0).1).map DocElem.plain))
            (j + (a :: (takeAnys rest0).1).length) (takeAnys rest0).2).dst := by
        rw [insert_at_cons_plain fuel heap dst j rest0 hv]
      have hXo : (insert_at fuel heap dst j (v :: rest0)).ops =
          .rangeInsert (a :: (takeAnys rest0).1) ::
          (insert_at fuel heap
            (insertSliceAt dst j ((a :: (takeAnys rest0).1).map DocElem.plain))
            (j + (a :: (takeAnys rest0).1).length) (takeAnys rest0).2).ops := by
        rw [insert_at_cons_plain fuel heap dst j rest0 hv]
      have hXe : (insert_at fuel heap dst j (v :: rest0)).err =
          (insert_at fuel heap
            (insertSliceAt dst j ((a :: (takeAnys rest0).1).map DocElem.plain))
            (j + (a :: (takeAnys rest0).1).length) (takeAnys rest0).2).err := by
        rw [insert_at_cons_plain fuel heap dst j rest0 hv]
      obtain ⟨ihd, iho, ihe⟩ := insert_at_ordered (takeAnys rest0).2 fuel heap
        (insertSliceAt dst j ((a :: (takeAnys rest0).1).map DocElem.plain))
        (j + (a :: (takeAnys rest0).1).length) hf
        (fun x hx => hok x (hsubr.mem hx))
        ((sharedIds_sublist hsubr).nodup hnd)
      have hPplain : ∀ x ∈ (v :: rest0).takeWhile isPlain, isPlain x = true :=
        fun x hx => List.mem_takeWhile_imp hx
      have hanys : a :: (takeAnys rest0).1 =
          ((v :: rest0).takeWhile isPlain).filterMap py_into_any := by
        rw [h1, List.takeWhile_cons, if_pos hvp]
        simp [hv]
      have hmapA : (a :: (takeAnys rest0).1).map DocElem.plain =
          ((v :: rest0).takeWhile isPlain).map elemOf := by
        rw [hanys, ← map_elemOf_all_plain _ hPplain]
      have hdrop : (takeAnys rest0).2 = (v :: rest0).dropWhile isPlain := by
        rw [h2, List.dropWhile_cons, if_pos hvp]
      refine ⟨?_, ?_, by rw [hXe, ihe]⟩
      · rw [hXd, ihd]
        have hlen : j + (a :: (takeAnys rest0).1).length =
            j + ((a :: (takeAnys rest0).1).map DocElem.plain).length := by
          simp
        rw [hlen, insertSliceAt_append]
        congr 1
        rw [hmapA, hdrop, ← List.map_append, List.takeWhile_append_dropWhile]
      · rw [hXo, iho, planOpsSpec_cons_plain rest0 hvp, hanys, hdrop]
    | none =>
      have hsh : shallowOk heap v = true := hok v (by simp)
      obtain ⟨h, rfl⟩ := shared_of_shallow hv hsh
      obtain ⟨f, rfl⟩ : ∃ f, fuel = f + 1 := ⟨fuel - 1, by omega⟩
      obtain ⟨S, hSp, hint⟩ := integrate_shallow f heap h hsh
      have hie : (integrate (f + 1) heap h).err = none := by rw [hint]
      have hih : (integrate (f + 1) heap h).heap = setH heap h S := by rw [hint]
      have hcc := into_content_shallow hsh
      have hXd : (insert_at (f + 1) heap dst j (.vshared h :: rest0)).dst =
          (insert_at (f + 1) (integrate (f + 1) heap h).heap
            (insertSliceAt dst j [DocElem.ctr h]) (j + 1) rest0).dst := by
        rw [insert_at_cons_ctr_ok (f + 1) heap dst j rest0 hv hcc hie]
      have hXo : (insert_at (f + 1) heap dst j (.vshared h :: rest0)).ops =
          .containerAttach h ::
          (insert_at (f + 1) (integrate (f + 1) heap h).heap
            (insertSliceAt dst j [DocElem.ctr h]) (j + 1) rest0).ops := by
        rw [insert_at_cons_ctr_ok (f + 1) heap dst j rest0 hv hcc hie]
      have hXe : (insert_at (f + 1) heap dst j (.vshared h :: rest0)).err =
          (insert_at (f + 1) (integrate (f + 1) heap h).heap
            (insertSliceAt dst j [DocElem.ctr h]) (j + 1) rest0).err := by
        rw [insert_at_cons_ctr_ok (f + 1) heap dst j rest0 hv hcc hie]
      have hnd0 := List.nodup_cons.mp (by rwa [sharedIds_cons_shared] at hnd)
      have hok' : ∀ x ∈ rest0, shallowOk (setH heap h S) x = true := by
        intro x hx
        have hl : ∀ h2 : Nat, x = .vshared h2 →
            lookupH (setH heap h S) h2 = lookupH heap h2 := by
          intro h2 hx2
          subst hx2
          have hne : h2 ≠ h := fun he => hnd0.1 (he ▸ mem_sharedIds_of_mem hx)
          exact lookupH_setH_ne heap h h2 S hne
        rw [shallowOk_congr heap (setH heap h S) x hl]
        exact hok x (by simp [hx])
      obtain ⟨ihd, iho, ihe⟩ := insert_at_ordered rest0 (f + 1) (setH heap h S)
        (insertSliceAt dst j [DocElem.ctr h]) (j + 1) hf hok' hnd0.2
      refine ⟨?_, ?_, by rw [hXe, hih, ihe]⟩
      · rw [hXd, hih, ihd]
        have hone : j + 1 = j + ([DocElem.ctr h] : List DocElem).length := by simp
        rw [hone, insertSliceAt_append]
        congr 1
      · rw [hXo, hih, iho,
          planOpsSpec_cons_ctr rest0 (by simp [isPlain, py_into_any] : isPlain (.vshared h) = false)]
        simp [sharedId]
termination_by src fuel heap dst j => src.length
decreasing_by
  all_goals simp_wf
  all_goals try simp [List.length_cons]
  all_goals omega

theorem mapInsertAll_plain_leading (fuel : Nat) :
    ∀ (pre : List (String × PyValue)) (heap : Heap) (m : List (String × DocElem))
      (tail : List (String × PyValue)), (∀ kv ∈ pre, isPlain kv.2 = true) →
      mapInsertAll fuel heap m (pre ++ tail) =
        mapInsertAll fuel heap (applyPlainEntries m pre) tail := by
  intro pre
  induction pre with
  | nil => intro heap m tail _; rfl
  | cons p rest ih =>
    intro heap m tail hp
    obtain ⟨k, v⟩ := p
    have hv : isPlain v = true := hp (k, v) (by simp)
    obtain ⟨a, ha⟩ := Option.isSome_iff_exists.mp hv
    have hmi : mapInsert fuel heap m k v = ⟨heap, setEntry m k (.plain a), none⟩ :=
      mapInsert_plain fuel heap m k (into_content_plain ha)
    rw [List.cons_append, mapInsertAll_cons_ok fuel heap m (rest ++ tail) (by rw [hmi]), hmi,
      ih heap (setEntry m k (.plain a)) tail fun kv hkv => hp kv (by simp [hkv])]
    simp [applyPlainEntries, ha]

/-! ### Claim theorems: lifecycle, error handling, ordering (C2, C3, C4, C5, C7, C10) -/

/-- C3: the lifecycle of a shared-container handle — once `attach` (the
`into_content`/`integrate` pair) succeeds on a preliminary handle, its state
is Integrated; attaching a handle that is not preliminary fails (with the
integration panic) before any mutation; and no modelled operation
(`integrate`, `insert_at`, map insertion, `YArray::insert`/`push`; `get` and
`delete` do not touch handle states) ever demotes an integrated handle back
to Preliminary. -/
theorem handle_lifecycle :
    (∀ (heap : Heap) (h : Nat) (s : HState), lookupH heap h = some s → s.isPrelim = true →
      ∀ fuel : Nat, (integrate fuel heap h).err = none →
        integratedAt (integrate fuel heap h).heap h = true) ∧
    (∀ (heap : Heap) (h : Nat) (s : HState), lookupH heap h = some s → s.isPrelim = false →
      into_content heap (.vshared h) = .error (.panic cannotIntegrateMsg)) ∧
    (∀ (fuel : Nat) (heap : Heap) (h : Nat), heapMono heap (integrate fuel heap h).heap) ∧
    (∀ (fuel : Nat) (heap : Heap) (dst : List DocElem) (j : Nat) (src : List PyValue),
      heapMono heap (insert_at fuel heap dst j src).heap) ∧
    (∀ (fuel : Nat) (heap : Heap) (m : List (String × DocElem)) (k : String) (v : PyValue),
      heapMono heap (mapInsert fuel heap m k v).heap) ∧
    (∀ (fuel : Nat) (heap : Heap) (m : List (String × DocElem))
      (entries : List (String × PyValue)), heapMono heap (mapInsertAll fuel heap m entries).heap) ∧
    (∀ (fuel : Nat) (heap : Heap) (a : YArrayState) (index : Nat) (items : List PyValue),
      heapMono heap (YArrayState.insert fuel heap a index items).heap) ∧
    (∀ (fuel : Nat) (heap : Heap) (a : YArrayState) (items : List PyValue),
      heapMono heap (YArrayState.push fuel heap a items).heap) := by
  have harr : ∀ (fuel : Nat) (heap : Heap) (a : YArrayState) (index : Nat)
      (items : List PyValue), heapMono heap (YArrayState.insert fuel heap a index items).heap := by
    intro fuel heap a index items
    cases a with
    | integrated elems => exact insert_at_heapMono' fuel heap elems index items
    | prelim vec => exact heapMono_refl heap
  refine ⟨?_, ?_, integrate_heapMono, fun fuel => insert_at_heapMono' fuel,
    fun fuel => mapInsert_heapMono' fuel, fun fuel => mapInsertAll_heapMono' fuel, harr,
    fun fuel heap a items => harr fuel heap a (YArrayState.length a) items⟩
  · intro heap h s hl hs fuel he
    cases fuel with
    | zero => rw [integrate_zero] at he; simp at he
    | succ f =>
      cases s with
      | prelimText s' =>
        rw [integrate_succ_text f heap h hl]
        simp [integratedAt, lookupH_setH_self, HState.isPrelim]
      | prelimArr buf =>
        rw [integrate_succ_arr f heap h hl] at he ⊢
        cases hr : (insert_at f heap [] 0 buf).err with
        | some e => rw [hr] at he; simp at he
        | none => simp [integratedAt, lookupH_setH_self, HState.isPrelim]
      | prelimMap buf =>
        rw [integrate_succ_map f heap h hl] at he ⊢
        cases hr : (mapInsertAll f heap [] buf).err with
        | some e => rw [hr] at he; simp at he
        | none => simp [integratedAt, lookupH_setH_self, HState.isPrelim]
      | integText s' => simp [HState.isPrelim] at hs
      | integArr elems => simp [HState.isPrelim] at hs
      | integMap entries => simp [HState.isPrelim] at hs
  · intro heap h s hl hs
    exact into_content_nonprelim hl hs

/-- Witness for `handle_lifecycle`: a concrete preliminary text handle whose
attach succeeds, leaving it integrated. -/
theorem handle_lifecycle_witness :
    lookupH [(0, HState.prelimText ("ab"))] 0 = some (.prelimText ("ab")) ∧
    (HState.prelimText ("ab")).isPrelim = true ∧
    (integrate 1 [(0, HState.prelimText ("ab"))] 0).err = none ∧
    integratedAt (integrate 1 [(0, HState.prelimText ("ab"))] 0).heap 0 = true := by
  refine ⟨rfl, rfl, ?_, ?_⟩
  · rw [integrate_succ_text 0 [(0, HState.prelimText ("ab"))] 0 rfl]
  · exact handle_lifecycle.1 [(0, HState.prelimText ("ab"))] 0 (.prelimText ("ab")) rfl rfl 1
      (by rw [integrate_succ_text 0 [(0, HState.prelimText ("ab"))] 0 rfl])

/-- C2 (amended): attaching an already-Integrated handle as the value of a
new map entry fails with the source's integration panic ("Cannot integrate
this type" — the same generic panic as a type mismatch, not a distinct
AlreadyIntegrated error), and leaves the map, the heap, and — in a batch of
entries — every previously committed entry unchanged, with the remaining
entries unprocessed. -/
theorem map_insert_integrated_handle (fuel : Nat) (heap : Heap)
    (m : List (String × DocElem)) (k : String) (h : Nat) (s : HState)
    (hl : lookupH heap h = some s) (hs : s.isPrelim = false)
    (pre : List (String × PyValue)) (hpre : ∀ kv ∈ pre, isPlain kv.2 = true)
    (post : List (String × PyValue)) :
    mapInsert fuel heap m k (.vshared h) = ⟨heap, m, some (.panic cannotIntegrateMsg)⟩ ∧
    mapInsertAll fuel heap m (pre ++ (k, .vshared h) :: post) =
      ⟨heap, applyPlainEntries m pre, some (.panic cannotIntegrateMsg)⟩ := by
  have hmi : mapInsert fuel heap (applyPlainEntries m pre) k (.vshared h) =
      ⟨heap, applyPlainEntries m pre, some (.panic cannotIntegrateMsg)⟩ :=
    mapInsert_err fuel heap _ k (into_content_nonprelim hl hs)
  refine ⟨mapInsert_err fuel heap m k (into_content_nonprelim hl hs), ?_⟩
  rw [mapInsertAll_plain_leading fuel pre heap m _ hpre,
    mapInsertAll_cons_err fuel heap _ post (by rw [hmi]), hmi]

/-- C2 (counterexample to the claim as stated): at a concrete map insertion
of an already-integrated handle, the failure surfaces as the generic panic
"Cannot integrate this type"; no error named AlreadyIntegrated with message
"value already belongs to a document tree" exists in the code. -/
theorem map_insert_integrated_handle_counterexample :
    (mapInsert 1 [(0, HState.integArr [])] [] ("k") (.vshared 0)).err =
      some (.panic cannotIntegrateMsg) ∧
    (mapInsert 1 [(0, HState.integArr [])] [] ("k") (.vshared 0)).map = [] ∧
    (mapInsert 1 [(0, HState.integArr [])] [] ("k") (.vshared 0)).heap =
      [(0, HState.integArr [])] ∧
    (cannotIntegrateMsg == ("value already belongs to a document tree")) = false := by
  have hmi := mapInsert_err 1 [(0, HState.integArr [])] [] ("k")
    (@into_content_nonprelim [(0, HState.integArr [])] 0 (HState.integArr []) rfl rfl)
  exact ⟨by rw [hmi], by rw [hmi], by rw [hmi], by decide⟩

/-- Witness for `map_insert_integrated_handle` at a concrete heap, map, and
batch. -/
theorem map_insert_integrated_handle_witness :
    lookupH [(3, HState.integText ("t"))] 3 = some (.integText ("t")) ∧
    (HState.integText ("t")).isPrelim = false ∧
    (∀ kv ∈ [(("a"), PyValue.vint 1)], isPlain kv.2 = true) ∧
    mapInsert 2 [(3, HState.integText ("t"))] [(("x"), DocElem.plain .null)] ("y")
        (.vshared 3) =
      ⟨[(3, HState.integText ("t"))], [(("x"), DocElem.plain .null)],
        some (.panic cannotIntegrateMsg)⟩ := by
  refine ⟨rfl, rfl, by decide, ?_⟩
  exact (map_insert_integrated_handle 2 [(3, HState.integText ("t"))]
    [(("x"), DocElem.plain .null)] ("y") 3 (.integText ("t")) rfl rfl
    [(("a"), PyValue.vint 1)] (by decide) []).1

/-- C4: batch insertion ordering — for an input list mixing plain values and
(shallow, pairwise-distinct) preliminary containers inserted at index `j`,
the operation succeeds and the resulting order equals the input order: the
array contents are exactly the prior contents with the input images spliced
at `j`, and reading back position `j + k` through `get` returns the decoding
of the `k`-th input, in both the Integrated state (through the planner) and
the Preliminary state (buffer splice).  The cursor arithmetic never
double-counts or skips positions across run boundaries. -/
theorem batch_insert_ordering (fuel : Nat) (heap : Heap) (elems : List DocElem)
    (vec : List PyValue) (j : Nat) (src : List PyValue) (hf : 1 ≤ fuel)
    (hok : ∀ v ∈ src, shallowOk heap v = true) (hnd : (sharedIds src).Nodup)
    (hj : j ≤ elems.length) (hjv : j ≤ vec.length) :
    ((YArrayState.insert fuel heap (.integrated elems) j src).err = none ∧
      (YArrayState.insert fuel heap (.integrated elems) j src).arr =
        .integrated (insertSliceAt elems j (src.map elemOf)) ∧
      (∀ (k : Nat) (v : PyValue), src.get? k = some v →
        YArrayState.get (YArrayState.insert fuel heap (.integrated elems) j src).arr (j + k) =
          .ok (decodeElem (elemOf v)))) ∧
    ((YArrayState.insert fuel heap (.prelim vec) j src).err = none ∧
      (YArrayState.insert fuel heap (.prelim vec) j src).arr =
        .prelim (insertSliceAt vec j src) ∧
      (∀ (k : Nat) (v : PyValue), src.get? k = some v →
        YArrayState.get (YArrayState.insert fuel heap (.prelim vec) j src).arr (j + k) =
          .ok v)) := by
  obtain ⟨hd, ho, he⟩ := insert_at_ordered src fuel heap elems j hf hok hnd
  refine ⟨⟨he, ?_, ?_⟩, rfl, rfl, ?_⟩
  · show SharedType.integrated (insert_at fuel heap elems j src).dst = _
    rw [hd]
  · intro k v hkv
    have hk : k < src.length := by
      by_contra hcon
      rw [List.get?_eq_none.mpr (by omega)] at hkv
      simp at hkv
    show YArrayState.get (SharedType.integrated (insert_at fuel heap elems j src).dst) _ = _
    rw [hd]
    have hget : (insertSliceAt elems j (src.map elemOf)).get? (j + k) =
        (src.map elemOf).get? k :=
      get?_insertSliceAt elems j (src.map elemOf) k hj (by simp [hk])
    rw [YArrayState.get, hget, List.get?_map, hkv]
    rfl
  · intro k v hkv
    have hk : k < src.length := by
      by_contra hcon
      rw [List.get?_eq_none.mpr (by omega)] at hkv
      simp at hkv
    show YArrayState.get (SharedType.prelim (insertSliceAt vec j src)) _ = _
    have hget : (insertSliceAt vec j src).get? (j + k) = src.get? k :=
      get?_insertSliceAt vec j src k hjv hk
    rw [YArrayState.get, hget, hkv]

/-- Witness for `batch_insert_ordering`: the spec's scenario — inserting
["a", 1, preliminary-sequence, "b"] at index 0 of an empty array — with the
hypotheses checked concretely. -/
theorem batch_insert_ordering_witness :
    (∀ v ∈ [PyValue.vstring ("a"), PyValue.vint 1, PyValue.vshared 7, PyValue.vstring ("b")],
      shallowOk [(7, HState.prelimArr [PyValue.vbool true, PyValue.vbool false])] v = true) ∧
    ([7] : List Nat).Nodup ∧
    (YArrayState.insert 1 [(7, HState.prelimArr [PyValue.vbool true, PyValue.vbool false])]
        (.integrated []) 0
        [PyValue.vstring ("a"), PyValue.vint 1, PyValue.vshared 7, PyValue.vstring ("b")]).arr =
      .integrated (insertSliceAt [] 0
        ([PyValue.vstring ("a"), PyValue.vint 1, PyValue.vshared 7,
          PyValue.vstring ("b")].map elemOf)) := by
  refine ⟨by decide, by decide, ?_⟩
  exact (batch_insert_ordering 1 _ [] [] 0 _ (by decide) (by decide) (by decide)
    (by decide) (by decide)).1.2.1

/-- C5: the planner's op trace is exactly the greedy maximal-run partition —
each maximal run of consecutive plain values becomes exactly one range-insert
op carrying the whole run, and each container value becomes exactly one
container-attach op — and the batch completes without error. -/
theorem batch_insert_minimal_ops (fuel : Nat) (heap : Heap) (dst : List DocElem) (j : Nat)
    (src : List PyValue) (hf : 1 ≤ fuel) (hok : ∀ v ∈ src, shallowOk heap v = true)
    (hnd : (sharedIds src).Nodup) :
    (insert_at fuel heap dst j src).ops = planOpsSpec src ∧
    (insert_at fuel heap dst j src).err = none :=
  ⟨(insert_at_ordered src fuel heap dst j hf hok hnd).2.1,
    (insert_at_ordered src fuel heap dst j hf hok hnd).2.2⟩

/-- Witness for `batch_insert_minimal_ops` on the spec's scenario input. -/
theorem batch_insert_minimal_ops_witness :
    (∀ v ∈ [PyValue.vstring ("a"), PyValue.vint 1, PyValue.vshared 7, PyValue.vstring ("b")],
      shallowOk [(7, HState.prelimArr [PyValue.vbool true, PyValue.vbool false])] v = true) ∧
    (insert_at 1 [(7, HState.prelimArr [PyValue.vbool true, PyValue.vbool false])] [] 0
        [PyValue.vstring ("a"), PyValue.vint 1, PyValue.vshared 7, PyValue.vstring ("b")]).ops =
      planOpsSpec
        [PyValue.vstring ("a"), PyValue.vint 1, PyValue.vshared 7, PyValue.vstring ("b")] := by
  refine ⟨by decide, ?_⟩
  exact (batch_insert_minimal_ops 1 _ [] 0 _ (by decide) (by decide) (by decide)).1

/-- Discriminator: recognizes a result that is an `IndexError`. -/
def isIndexErrResult {α : Type} : Except Err α → Bool
  | .error (.indexError _) => true
  | _ => false

/-- C7 (amended): an out-of-bounds read (`get`) on either state is reported
as `IndexOutOfRange` (`PyIndexError`) with no mutation; an out-of-bounds
delete performs no mutation in either state, and on an Integrated array the
engine reports it out-of-range, but on a Preliminary array it surfaces as
the generic `Vec::drain` slice-bounds panic, not as an IndexOutOfRange
error. -/
theorem index_out_of_range_behavior (arr : YArrayState) (i n : Nat)
    (elems : List DocElem) (vec : List PyValue) :
    (YArrayState.length arr ≤ i →
      YArrayState.get arr i = .error (.indexError yarrayBoundsMsg)) ∧
    (elems.length < i + n →
      YArrayState.delete (.integrated elems) i n = .error (.indexError rangeDeleteMsg)) ∧
    (vec.length < i + n →
      YArrayState.delete (.prelim vec) i n = .error (.panic drainBoundsMsg)) := by
  refine ⟨?_, ?_, ?_⟩
  · intro hi
    cases arr with
    | integrated v =>
      rw [YArrayState.get, List.get?_eq_none.mpr (by simpa [YArrayState.length] using hi)]
    | prelim v =>
      rw [YArrayState.get, List.get?_eq_none.mpr (by simpa [YArrayState.length] using hi)]
  · intro hlt
    rw [YArrayState.delete, if_neg (by omega)]
  · intro hlt
    rw [YArrayState.delete, if_neg (by omega)]

/-- C7 (counterexample to the claim as stated): deleting beyond the length of
a preliminary sequence is surfaced as the `Vec::drain` panic, not as an
IndexOutOfRange error. -/
theorem index_out_of_range_counterexample :
    YArrayState.delete (.prelim [PyValue.vnone]) 1 1 = .error (.panic drainBoundsMsg) ∧
    isIndexErrResult (YArrayState.delete (.prelim [PyValue.vnone]) 1 1) = false := by
  constructor <;> rfl

/-- Witness for `index_out_of_range_behavior` at concrete one-element
arrays. -/
theorem index_out_of_range_behavior_witness :
    YArrayState.length (.prelim [PyValue.vnone]) ≤ 1 ∧
    YArrayState.get (.prelim [PyValue.vnone]) 1 = .error (.indexError yarrayBoundsMsg) ∧
    YArrayState.delete (.integrated [DocElem.plain .null]) 1 1 =
      .error (.indexError rangeDeleteMsg) ∧
    YArrayState.delete (.prelim [PyValue.vnone]) 1 1 = .error (.panic drainBoundsMsg) := by
  refine ⟨by decide, ?_, ?_, ?_⟩
  · exact (index_out_of_range_behavior (.prelim [PyValue.vnone]) 1 1 [] []).1 (by decide)
  · exact (index_out_of_range_behavior (.prelim [PyValue.vnone]) 1 1
      [DocElem.plain .null] []).2.1 (by decide)
  · exact (index_out_of_range_behavior (.prelim [PyValue.vnone]) 1 1 []
      [PyValue.vnone]).2.2 (by decide)

/-- C10: `push` is exactly `insert` at the current length, in both states —
so pushed items appear at the end, in input order, with the prior elements
unchanged: on a preliminary array the buffer becomes the old buffer followed
by the items; on an integrated array (for shallow inputs) the contents
become the old contents followed by the items' images. -/
theorem push_is_insert_at_length (fuel : Nat) (heap : Heap) (vec : List PyValue)
    (elems : List DocElem) (items : List PyValue) :
    YArrayState.push fuel heap (.prelim vec) items =
      YArrayState.insert fuel heap (.prelim vec) (YArrayState.length (.prelim vec)) items ∧
    YArrayState.push fuel heap (.integrated elems) items =
      YArrayState.insert fuel heap (.integrated elems)
        (YArrayState.length (.integrated elems)) items ∧
    (YArrayState.push fuel heap (.prelim vec) items).arr = .prelim (vec ++ items) ∧
    (YArrayState.push fuel heap (.prelim vec) items).err = none ∧
    (1 ≤ fuel → (∀ v ∈ items, shallowOk heap v = true) → (sharedIds items).Nodup →
      (YArrayState.push fuel heap (.integrated elems) items).arr =
        .integrated (elems ++ items.map elemOf) ∧
      (YArrayState.push fuel heap (.integrated elems) items).err = none) := by
  refine ⟨rfl, rfl, ?_, rfl, ?_⟩
  · show SharedType.prelim (insertSliceAt vec vec.length items) = _
    rw [insertSliceAt_at_length]
  · intro hf hok hnd
    obtain ⟨hd, ho, he⟩ := insert_at_ordered items fuel heap elems elems.length hf hok hnd
    constructor
    · show SharedType.integrated (insert_at fuel heap elems elems.length items).dst = _
      rw [hd, insertSliceAt_at_length]
    · exact he

/-- Witness for `push_is_insert_at_length` at a concrete array and items. -/
theorem push_is_insert_at_length_witness :
    (∀ v ∈ [PyValue.vint 5, PyValue.vstring ("z")], shallowOk [] v = true) ∧
    (YArrayState.push 1 [] (.prelim [PyValue.vnone]) [PyValue.vint 5]).arr =
      .prelim [PyValue.vnone, PyValue.vint 5] ∧
    (YArrayState.push 1 [] (.integrated [DocElem.plain .null])
        [PyValue.vint 5, PyValue.vstring ("z")]).arr =
      .integrated ([DocElem.plain .null] ++
        [PyValue.vint 5, PyValue.vstring ("z")].map elemOf) := by
  refine ⟨by decide, ?_, ?_⟩
  · exact (push_is_insert_at_length 1 [] [PyValue.vnone] [] [PyValue.vint 5]).2.2.1
  · exact ((push_is_insert_at_length 1 [] [] [DocElem.plain .null]
      [PyValue.vint 5, PyValue.vstring ("z")]).2.2.2.2 (by decide) (by decide) (by decide)).1

end Ypy
